import Mathlib

/-!
A verification development for `massa-pos-exports/src/cycle_info.rs`:
the per-cycle Proof-of-Stake state (`CycleInfo`), its hash-aggregation
constructor `CycleInfo::new_with_hash`, the production statistics value
type, and the binary wire codec (serializers and bounded deserializers)
for cycle info and cycle history.

Machine integers are modelled as `Nat` with explicit bounds where the
Rust types impose them (`u64` values are `< 2^64`, hash values and
addresses are 32 bytes, i.e. `< 2^256`).  Byte streams are `List Nat`.
Fallible parsing returns `Option (value × remaining bytes)`.

Collaborator crates that are part of the repository but not present in
the source tree (the hash primitive, the varint codec, the address and
bit-vector codecs, the option codec, the rational comparison) are
modelled from the spec; each such definition carries a doc comment
starting with `Modelled from the spec:`.
-/

namespace CycleInfoSpec

/-! ## Primitive codecs -/

/-- Modelled from the spec: the canonical variable-length unsigned
integer encoding (`U64VarIntSerializer` in `massa_serialization`,
absent from the source tree).  LEB128: seven payload bits per byte,
high bit set on every byte except the last.  `fuel`-indexed so that the
definition is structural and computes by kernel reduction; the fuel
`n + 1` always suffices because the argument shrinks by a factor 128. -/
def varintEncodeAux : Nat → Nat → List Nat
  | 0, _ => []
  | fuel + 1, n =>
    if n < 128 then [n] else (n % 128 + 128) :: varintEncodeAux fuel (n / 128)

/-- Modelled from the spec: canonical varint encoding of `n`. -/
def varintEncode (n : Nat) : List Nat :=
  varintEncodeAux (n + 1) n

/-- Modelled from the spec: the canonical varint decoder
(`U64VarIntDeserializer`): reads continuation bytes, rejects truncated
input and non-canonical encodings (a continuation followed by a zero
remainder would have a shorter encoding). -/
def varintDecode : List Nat → Option (Nat × List Nat)
  | [] => none
  | b :: rest =>
    if b < 128 then some (b, rest)
    else
      match varintDecode rest with
      | some (v, rest2) => if v = 0 then none else some (b - 128 + 128 * v, rest2)
      | none => none

/-- Modelled from the spec: a varint decoder with an inclusive upper
bound on the decoded value, as used for `u64` fields (bound
`2 ^ 64 - 1`) and for length prefixes (bound = the configured maximum
collection size).  A decoded value above the bound is a decode error. -/
def varintDecodeBounded (max : Nat) (bs : List Nat) : Option (Nat × List Nat) :=
  match varintDecode bs with
  | some (v, rest) => if v ≤ max then some (v, rest) else none
  | none => none

/-- Largest `u64` value. -/
def U64MAX : Nat := 2 ^ 64 - 1

/-- Little-endian fixed-width byte encoding of a natural number
(used for the 32-byte hash and address payloads). -/
def natToBytesLE : Nat → Nat → List Nat
  | 0, _ => []
  | k + 1, n => (n % 256) :: natToBytesLE k (n / 256)

/-- Read `k` little-endian bytes into a natural number, failing on a
truncated stream. -/
def readBytesLE : Nat → List Nat → Option (Nat × List Nat)
  | 0, bs => some (0, bs)
  | _ + 1, [] => none
  | k + 1, b :: bs =>
    match readBytesLE k bs with
    | some (n, rest) => some (b + 256 * n, rest)
    | none => none

/-- Modelled from the spec: the fixed-format address codec
(`AddressSerializer` in `massa_models`, absent from the source tree):
a fixed 32-byte encoding of the address identifier. -/
def addressEncode (a : Nat) : List Nat :=
  natToBytesLE 32 a

/-- Modelled from the spec: the address decoder (`AddressDeserializer`). -/
def addressDecode (bs : List Nat) : Option (Nat × List Nat) :=
  readBytesLE 32 bs

/-- Modelled from the spec: the trusted hash primitive
`Hash::compute_from` of `massa_hash` (absent from the source tree): a
deterministic function from byte strings to fixed-width 32-byte values,
represented as naturals below `2 ^ 256`.  Collision resistance is not
modelled; no proof below relies on it. -/
def hashCompute (bs : List Nat) : Nat :=
  bs.foldl (fun acc b => (acc * 257 + b % 256 + 1) % 2 ^ 256) 0

/-- Modelled from the spec: `Hash::to_bytes`, the 32-byte little-endian
image of a hash value. -/
def hashToBytes (h : Nat) : List Nat :=
  natToBytesLE 32 h

/-- Modelled from the spec: `HashDeserializer` reads exactly 32 raw
bytes. -/
def hashDecode (bs : List Nat) : Option (Nat × List Nat) :=
  readBytesLE 32 bs

/-! ## Bit sequences -/

/-- The numeric value of up to eight bits, least-significant first
(`Lsb0` packing of the `bitvec` crate used for `BitVec<u8>`). -/
def byteOfBits : List Bool → Nat
  | [] => 0
  | b :: t => (if b then 1 else 0) + 2 * byteOfBits t

/-- The low `k` bits of a byte value, least-significant first. -/
def bitsN : Nat → Nat → List Bool
  | 0, _ => []
  | k + 1, b => decide (b % 2 = 1) :: bitsN k (b / 2)

/-- Pack a bit sequence into bytes, eight bits per byte, the last byte
padded with zero bits; `fuel`-indexed structural recursion. -/
def packBitsN : Nat → List Bool → List Nat
  | 0, _ => []
  | k + 1, bits =>
    match bits with
    | [] => []
    | _ :: _ => byteOfBits (bits.take 8) :: packBitsN k (bits.drop 8)

/-- Pack a bit sequence into bytes (Lsb0, eight bits per byte). -/
def packBits (bits : List Bool) : List Nat :=
  packBitsN bits.length bits

/-- Modelled from the spec: the bit-sequence encoder (`BitVecSerializer`
in `massa_models`, absent from the source tree): a length prefix giving
the bit count (a `u32` in the reference, hence the `2 ^ 32 - 1` bound on
the decode side) followed by the packed bytes. -/
def bitvecEncode (bits : List Bool) : List Nat :=
  varintEncode bits.length ++ packBits bits

/-- Modelled from the spec: the bit-sequence decoder
(`BitVecDeserializer`): reads the bit count, then exactly
`⌈count / 8⌉` bytes, and unpacks the first `count` bits. -/
def bitvecDecode (bs : List Nat) : Option (List Bool × List Nat) :=
  match varintDecodeBounded (2 ^ 32 - 1) bs with
  | some (n, rest) =>
    let numBytes := (n + 7) / 8
    if numBytes ≤ rest.length then
      some (((rest.take numBytes).flatMap (bitsN 8)).take n, rest.drop numBytes)
    else none
  | none => none

/-! ## Option codec -/

/-- Modelled from the spec: `OptionSerializer` (absent from the source
tree): a presence byte, `0` for absent and `1` followed by the payload
for present, here specialised to the 32-byte hash payload. -/
def optHashEncode : Option Nat → List Nat
  | none => [0]
  | some h => 1 :: hashToBytes h

/-- Modelled from the spec: `OptionDeserializer` specialised to hashes:
presence byte `0` decodes to absent, `1` to a 32-byte hash, and any
other presence byte is a decode error. -/
def optHashDecode : List Nat → Option (Option Nat × List Nat)
  | [] => none
  | b :: rest =>
    if b = 0 then some (none, rest)
    else if b = 1 then
      match hashDecode rest with
      | some (h, rest2) => some (some h, rest2)
      | none => none
    else none

/-! ## Production statistics (`ProductionStats` in `cycle_info.rs`) -/

/-- Block production statistics: number of successfully created blocks
and number of blocks missed (`u64` counters). -/
structure ProductionStats where
  block_success_count : Nat
  block_failure_count : Nat
deriving DecidableEq, Repr

/-- Rust `u64::saturating_add`. -/
def saturatingAdd (a b : Nat) : Nat :=
  min (a + b) U64MAX

/-- Rust `ProductionStats::extend`: increment a production stat structure
with another, with saturating `u64` addition on each counter. -/
def ProductionStats.extend (s other : ProductionStats) : ProductionStats :=
  { block_success_count := saturatingAdd s.block_success_count other.block_success_count
    block_failure_count := saturatingAdd s.block_failure_count other.block_failure_count }

/-- Modelled from the spec: a rational number with a non-zero
denominator (`Ratio<u64>` of the `num` crate), used for the maximum
miss ratio.  Comparison of non-negative rationals is by
cross-multiplication. -/
structure Ratio where
  num : Nat
  den : Nat
deriving DecidableEq, Repr

/-- Rust `ProductionStats::is_satisfying`: check whether the production
stats are above the required ratio.  The Rust body computes
`opportunities_count = block_success_count + block_failure_count` with
plain `u64` addition, which is an arithmetic overflow error when the
mathematical sum exceeds `u64::MAX`; overflow is modelled as `none`.
Otherwise zero opportunities yield `true`, and a non-zero count yields
the comparison `block_failure_count / opportunities_count ≤
max_miss_ratio` as rationals. -/
def ProductionStats.is_satisfying (s : ProductionStats) (max_miss_ratio : Ratio) :
    Option Bool :=
  let opportunities_count := s.block_success_count + s.block_failure_count
  if opportunities_count > U64MAX then none
  else if opportunities_count = 0 then some true
  else
    some (decide (s.block_failure_count * max_miss_ratio.den ≤
      max_miss_ratio.num * opportunities_count))

/-! ## Sorted-map and hash-map models

`roll_counts` is a `BTreeMap<Address, u64>`: modelled as an association
list whose keys are strictly increasing (the map's sorted iteration
order).  `production_stats` is a `PreHashMap<Address, ProductionStats>`:
modelled as an association list with pairwise-distinct keys listed in
the map's (arbitrary but fixed) iteration order. -/

/-- Insertion into the sorted association list modelling a `BTreeMap`:
keeps keys strictly sorted, replaces the value on an existing key. -/
def btreeInsert {α : Type} : List (Nat × α) → Nat → α → List (Nat × α)
  | [], k, v => [(k, v)]
  | (k', v') :: t, k, v =>
    if k < k' then (k, v) :: (k', v') :: t
    else if k = k' then (k, v) :: t
    else (k', v') :: btreeInsert t k v

/-- Rust `Vec::into_iter().collect::<BTreeMap<_,_>>()`: fold the pairs into
an initially empty sorted map; a later pair with an already-present key
overwrites the earlier value. -/
def btreeCollect {α : Type} (l : List (Nat × α)) : List (Nat × α) :=
  l.foldl (fun m e => btreeInsert m e.1 e.2) []

/-- Map lookup on an association list (first match). -/
def alookup {α : Type} : List (Nat × α) → Nat → Option α
  | [], _ => none
  | (k', v') :: t, k => if k = k' then some v' else alookup t k

/-- Insertion into the association list modelling a `PreHashMap`
(`HashMap`): replaces the value in place on an existing key, appends a
fresh key. -/
def psInsert {α : Type} : List (Nat × α) → Nat → α → List (Nat × α)
  | [], k, v => [(k, v)]
  | (k', v') :: t, k, v =>
    if k = k' then (k, v) :: t else (k', v') :: psInsert t k v

/-- Rust `Iterator::collect::<HashMap<_,_>>()`: fold the pairs into an
initially empty map; a later pair with an already-present key
overwrites the earlier value. -/
def psCollect {α : Type} (l : List (Nat × α)) : List (Nat × α) :=
  l.foldl (fun m e => psInsert m e.1 e.2) []

/-! ## `CycleInfoHashComputer` (per-field hashing, `cycle_info.rs`) -/

/-- Rust `CycleInfoHashComputer::compute_cycle_hash`: hash of the varint
encoding of the cycle number. -/
def compute_cycle_hash (cycle : Nat) : Nat :=
  hashCompute (varintEncode cycle)

/-- Rust `CycleInfoHashComputer::compute_complete_hash`: hash of the varint
encoding of `complete as u64`. -/
def compute_complete_hash (complete : Bool) : Nat :=
  hashCompute (varintEncode (if complete then 1 else 0))

/-- Rust `CycleInfoHashComputer::compute_seed_hash`: hash of the bit-vector
encoding of the RNG seed. -/
def compute_seed_hash (seed : List Bool) : Nat :=
  hashCompute (bitvecEncode seed)

/-- Rust `CycleInfoHashComputer::compute_roll_entry_hash`: hash of the
address encoding followed by the varint roll count. -/
def compute_roll_entry_hash (address : Nat) (roll_count : Nat) : Nat :=
  hashCompute (addressEncode address ++ varintEncode roll_count)

/-- Rust `CycleInfoHashComputer::compute_prod_stats_entry_hash`: hash of the
address encoding followed by the varint success and failure counts. -/
def compute_prod_stats_entry_hash (address : Nat) (prod_stats : ProductionStats) : Nat :=
  hashCompute (addressEncode address ++ varintEncode prod_stats.block_success_count ++
    varintEncode prod_stats.block_failure_count)

/-! ## `CycleInfo` and its constructor -/

/-- State of a cycle for all threads (`CycleInfo` in `cycle_info.rs`).
`roll_counts` is the sorted iteration sequence of the `BTreeMap`;
`production_stats` is the iteration sequence of the `PreHashMap`. -/
structure CycleInfo where
  cycle : Nat
  complete : Bool
  roll_counts : List (Nat × Nat)
  rng_seed : List Bool
  production_stats : List (Nat × ProductionStats)
  roll_counts_hash : Nat
  production_stats_hash : Nat
  cycle_global_hash : Nat
  final_state_hash_snapshot : Option Nat
deriving DecidableEq, Repr

/-- Rust `CycleInfo::new_with_hash`: create a new `CycleInfo` and compute its
hashes.  The two aggregate hashes start from the all-zero 32-byte value
(`CYCLE_INFO_HASH_INITIAL_BYTES`, i.e. `0`) and accumulate the per-entry
hashes with bitwise exclusive-OR in iteration order; the global hash is
the hash of the concatenation of the cycle hash, the completeness hash,
the seed hash and the two aggregate hashes' bytes.  The snapshot field
starts unset. -/
def new_with_hash (cycle : Nat) (complete : Bool) (roll_counts : List (Nat × Nat))
    (rng_seed : List Bool) (production_stats : List (Nat × ProductionStats)) : CycleInfo :=
  let roll_counts_hash :=
    (roll_counts.map fun e => compute_roll_entry_hash e.1 e.2).foldl Nat.xor 0
  let production_stats_hash :=
    (production_stats.map fun e => compute_prod_stats_entry_hash e.1 e.2).foldl Nat.xor 0
  let hash_concat :=
    hashToBytes (compute_cycle_hash cycle) ++ hashToBytes (compute_complete_hash complete) ++
    hashToBytes (compute_seed_hash rng_seed) ++ hashToBytes roll_counts_hash ++
    hashToBytes production_stats_hash
  { cycle := cycle
    complete := complete
    roll_counts := roll_counts
    rng_seed := rng_seed
    production_stats := production_stats
    roll_counts_hash := roll_counts_hash
    production_stats_hash := production_stats_hash
    cycle_global_hash := hashCompute hash_concat
    final_state_hash_snapshot := none }

/-! ## Wire codec (`cycle_info.rs` serializers and deserializers) -/

/-- The roll-count section written by `CycleInfoSerializer`: varint
entry count, then for each entry the address bytes and the varint
count, in map iteration order. -/
def rollsEncode (roll_counts : List (Nat × Nat)) : List Nat :=
  varintEncode roll_counts.length ++
    roll_counts.flatMap fun e => addressEncode e.1 ++ varintEncode e.2

/-- Rust `ProductionStatsSerializer::serialize`: varint entry count, then
for each entry the address bytes, the varint success count and the
varint failure count, in map iteration order. -/
def prodStatsEncode (production_stats : List (Nat × ProductionStats)) : List Nat :=
  varintEncode production_stats.length ++
    production_stats.flatMap fun e =>
      addressEncode e.1 ++ varintEncode e.2.block_success_count ++
        varintEncode e.2.block_failure_count

/-- Rust `CycleInfoSerializer::serialize`: cycle varint, the completeness
byte (`1` for true, `0` for false), the roll-count section, the seed
bit-vector, the production-stats section and the optional snapshot
hash. -/
def cycleInfoSerialize (x : CycleInfo) : List Nat :=
  varintEncode x.cycle ++
    (if x.complete then 1 else 0) ::
      (rollsEncode x.roll_counts ++ bitvecEncode x.rng_seed ++
        prodStatsEncode x.production_stats ++ optHashEncode x.final_state_hash_snapshot)

/-- The completeness-byte decoder: the nom combinator
`alt((value(true, tag(&[1])), value(false, tag(&[0]))))` — byte `1`
decodes to `true`, byte `0` to `false`, anything else is a decode
error. -/
def completeDecode : List Nat → Option (Bool × List Nat)
  | [] => none
  | b :: rest =>
    if b = 1 then some (true, rest)
    else if b = 0 then some (false, rest)
    else none

/-- Read `n` roll entries (address, varint `u64` count). -/
def readRollEntries : Nat → List Nat → Option (List (Nat × Nat) × List Nat)
  | 0, bs => some ([], bs)
  | n + 1, bs =>
    match addressDecode bs with
    | none => none
    | some (a, bs1) =>
      match varintDecodeBounded U64MAX bs1 with
      | none => none
      | some (c, bs2) =>
        match readRollEntries n bs2 with
        | none => none
        | some (es, bs3) => some ((a, c) :: es, bs3)

/-- Rust `RollsDeserializer::deserialize`: a varint length bounded by the
configured `max_rolls_length`, then that many entries, returned as a
plain sequence (the Rust code returns `Vec<(Address, u64)>`). -/
def rollsDeserialize (max_rolls_length : Nat) (bs : List Nat) :
    Option (List (Nat × Nat) × List Nat) :=
  match varintDecodeBounded max_rolls_length bs with
  | some (n, rest) => readRollEntries n rest
  | none => none

/-- Read `n` production-stats entries (address, varint success count,
varint failure count). -/
def readStatsEntries : Nat → List Nat → Option (List (Nat × ProductionStats) × List Nat)
  | 0, bs => some ([], bs)
  | n + 1, bs =>
    match addressDecode bs with
    | none => none
    | some (a, bs1) =>
      match varintDecodeBounded U64MAX bs1 with
      | none => none
      | some (s, bs2) =>
        match varintDecodeBounded U64MAX bs2 with
        | none => none
        | some (f, bs3) =>
          match readStatsEntries n bs3 with
          | none => none
          | some (es, bs4) => some ((a, ⟨s, f⟩) :: es, bs4)

/-- Rust `ProductionStatsDeserializer::deserialize`: a varint length bounded
by the configured `max_production_stats_length`, then that many
triples, collected into the `PreHashMap`. -/
def prodStatsDeserialize (max_production_stats_length : Nat) (bs : List Nat) :
    Option (List (Nat × ProductionStats) × List Nat) :=
  match varintDecodeBounded max_production_stats_length bs with
  | some (n, rest) =>
    match readStatsEntries n rest with
    | some (es, rest2) => some (psCollect es, rest2)
    | none => none
  | none => none

/-- Rust `CycleInfoDeserializer::deserialize`: parse the six sections in
order, rebuild the `CycleInfo` through `CycleInfo::new_with_hash`
(collecting the roll entries into the `BTreeMap`), then set the
snapshot field from the decoded option.  The stored hashes are always
recomputed, never read from the wire. -/
def cycleInfoDeserialize (max_rolls_length max_production_stats_length : Nat)
    (bs : List Nat) : Option (CycleInfo × List Nat) :=
  match varintDecodeBounded U64MAX bs with
  | none => none
  | some (cycle, bs1) =>
    match completeDecode bs1 with
    | none => none
    | some (complete, bs2) =>
      match rollsDeserialize max_rolls_length bs2 with
      | none => none
      | some (rolls, bs3) =>
        match bitvecDecode bs3 with
        | none => none
        | some (seed, bs4) =>
          match prodStatsDeserialize max_production_stats_length bs4 with
          | none => none
          | some (stats, bs5) =>
            match optHashDecode bs5 with
            | none => none
            | some (opt_hash, bs6) =>
              let c := new_with_hash cycle complete (btreeCollect rolls) seed stats
              some ({ c with final_state_hash_snapshot := opt_hash }, bs6)

/-- Rust `CycleHistorySerializer::serialize`: varint history length, then
each `CycleInfo` encoding in order. -/
def cycleHistorySerialize (history : List CycleInfo) : List Nat :=
  varintEncode history.length ++ history.flatMap cycleInfoSerialize

/-- Read `n` consecutive `CycleInfo` encodings. -/
def readCycleInfos (max_rolls_length max_production_stats_length : Nat) :
    Nat → List Nat → Option (List CycleInfo × List Nat)
  | 0, bs => some ([], bs)
  | n + 1, bs =>
    match cycleInfoDeserialize max_rolls_length max_production_stats_length bs with
    | none => none
    | some (c, bs1) =>
      match readCycleInfos max_rolls_length max_production_stats_length n bs1 with
      | none => none
      | some (cs, bs2) => some (c :: cs, bs2)

/-- Rust `CycleHistoryDeserializer::deserialize`: a varint length bounded by
the configured `max_cycle_history_length`, then that many `CycleInfo`
encodings. -/
def cycleHistoryDeserialize (max_cycle_history_length max_rolls_length
    max_production_stats_length : Nat) (bs : List Nat) :
    Option (List CycleInfo × List Nat) :=
  match varintDecodeBounded max_cycle_history_length bs with
  | some (n, rest) => readCycleInfos max_rolls_length max_production_stats_length n rest
  | none => none

/-! ## Derived definitions used by the statements -/

/-- The spec-side aggregate fold: the bitwise exclusive-OR of a list of
entry hashes, starting from the all-zero accumulator. -/
def xorAggregate (hs : List Nat) : Nat :=
  hs.foldl Nat.xor 0

/-- A `CycleInfo` as produced by deserialization: the constructor's
output with the snapshot field subsequently set from the wire. -/
def mkCycleInfo (cycle : Nat) (complete : Bool) (roll_counts : List (Nat × Nat))
    (rng_seed : List Bool) (production_stats : List (Nat × ProductionStats))
    (snapshot : Option Nat) : CycleInfo :=
  { new_with_hash cycle complete roll_counts rng_seed production_stats with
      final_state_hash_snapshot := snapshot }

/-- The value attached to the last occurrence of key `a` in an
association sequence (`none` when `a` never occurs). -/
def lastAssoc {α : Type} (l : List (Nat × α)) (a : Nat) : Option α :=
  l.foldl (fun acc e => if e.1 = a then some e.2 else acc) none

/-- The `BTreeMap` representation invariant: keys strictly increasing. -/
abbrev SortedKeys {α : Type} (l : List (Nat × α)) : Prop :=
  List.Pairwise (fun a b => a.1 < b.1) l

/-- The `HashMap` representation invariant: pairwise-distinct keys. -/
abbrev NoDupKeys {α : Type} (l : List (Nat × α)) : Prop :=
  (l.map Prod.fst).Nodup

/-- Bound on an optional hash value: 32 bytes wide when present. -/
def optBound (o : Option Nat) : Prop :=
  ∀ x ∈ o, x < 2 ^ 256

instance instDecidableOptBound (o : Option Nat) : Decidable (optBound o) :=
  match o with
  | none => isTrue (by simp [optBound])
  | some v => decidable_of_iff (v < 2 ^ 256) (by simp [optBound])

/-- Well-formedness of an in-memory `CycleInfo` relative to the decoder
bounds: every numeric field fits its Rust machine type, the map
representations satisfy their invariants, the collections fit the
configured maxima, and the stored hashes are the constructor's (every
Rust `CycleInfo` is built by `new_with_hash`, possibly followed by a
snapshot assignment). -/
abbrev CycleInfoWF (max_rolls_length max_production_stats_length : Nat) (x : CycleInfo) : Prop :=
  x.cycle < 2 ^ 64 ∧
  SortedKeys x.roll_counts ∧
  (∀ e ∈ x.roll_counts, e.1 < 2 ^ 256 ∧ e.2 < 2 ^ 64) ∧
  x.roll_counts.length ≤ max_rolls_length ∧
  x.rng_seed.length < 2 ^ 32 ∧
  NoDupKeys x.production_stats ∧
  (∀ e ∈ x.production_stats, e.1 < 2 ^ 256 ∧ e.2.block_success_count < 2 ^ 64 ∧
    e.2.block_failure_count < 2 ^ 64) ∧
  x.production_stats.length ≤ max_production_stats_length ∧
  optBound x.final_state_hash_snapshot ∧
  x = mkCycleInfo x.cycle x.complete x.roll_counts x.rng_seed x.production_stats
    x.final_state_hash_snapshot

/-! ## Varint lemmas -/

theorem varintDecode_encodeAux (fuel : Nat) :
    ∀ n rest, n < fuel → varintDecode (varintEncodeAux fuel n ++ rest) = some (n, rest) := by
  induction fuel with
  | zero => intro n rest h; omega
  | succ fuel ih =>
    intro n rest h
    by_cases hn : n < 128
    · simp [varintEncodeAux, hn, varintDecode]
    · have hdiv : n / 128 < fuel := by
        have h1 : n / 128 < n := Nat.div_lt_self (by omega) (by omega)
        omega
      simp only [varintEncodeAux, hn, if_false, List.cons_append]
      have hb : ¬ (n % 128 + 128 < 128) := by omega
      simp only [varintDecode, hb, if_false, ih (n / 128) rest hdiv]
      have hnz : ¬ (n / 128 = 0) := by
        have := Nat.div_pos (Nat.le_of_not_lt hn) (by omega)
        omega
      simp only [hnz, if_false]
      have harith : n % 128 + 128 - 128 + 128 * (n / 128) = n := by omega
      rw [harith]

theorem varintDecode_encode (n : Nat) (rest : List Nat) :
    varintDecode (varintEncode n ++ rest) = some (n, rest) :=
  varintDecode_encodeAux (n + 1) n rest (Nat.lt_succ_self n)

theorem varintDecodeBounded_encode (max n : Nat) (rest : List Nat) (h : n ≤ max) :
    varintDecodeBounded max (varintEncode n ++ rest) = some (n, rest) := by
  simp [varintDecodeBounded, varintDecode_encode, h]

theorem varintDecodeBounded_encode_gt (max n : Nat) (rest : List Nat) (h : max < n) :
    varintDecodeBounded max (varintEncode n ++ rest) = none := by
  simp [varintDecodeBounded, varintDecode_encode]
  omega

/-! ## Fixed-width byte lemmas -/

theorem readBytesLE_natToBytesLE (k : Nat) :
    ∀ n rest, n < 256 ^ k → readBytesLE k (natToBytesLE k n ++ rest) = some (n, rest) := by
  induction k with
  | zero =>
    intro n rest h
    simp at h
    simp [natToBytesLE, readBytesLE, h]
  | succ k ih =>
    intro n rest h
    have hdiv : n / 256 < 256 ^ k := by
      rw [Nat.div_lt_iff_lt_mul (by omega)]
      calc n < 256 ^ (k + 1) := h
        _ = 256 ^ k * 256 := by ring
    simp only [natToBytesLE, List.cons_append, readBytesLE, List.append_eq,
      ih (n / 256) rest hdiv]
    have harith : n % 256 + 256 * (n / 256) = n := by omega
    rw [harith]

theorem pow256_32 : (256 : Nat) ^ 32 = 2 ^ 256 := by norm_num

theorem addressDecode_encode (a : Nat) (rest : List Nat) (h : a < 2 ^ 256) :
    addressDecode (addressEncode a ++ rest) = some (a, rest) := by
  have := readBytesLE_natToBytesLE 32 a rest (by rw [pow256_32]; exact h)
  simpa [addressDecode, addressEncode] using this

theorem hashDecode_toBytes (h : Nat) (rest : List Nat) (hb : h < 2 ^ 256) :
    hashDecode (hashToBytes h ++ rest) = some (h, rest) := by
  have := readBytesLE_natToBytesLE 32 h rest (by rw [pow256_32]; exact hb)
  simpa [hashDecode, hashToBytes] using this

/-! ## Bit-sequence lemmas -/

theorem bitsN_zero (k : Nat) : bitsN k 0 = List.replicate k false := by
  induction k with
  | zero => rfl
  | succ k ih => simp [bitsN, ih, List.replicate]

theorem bitsN_byteOfBits (l : List Bool) :
    ∀ k, l.length ≤ k → bitsN k (byteOfBits l) = l ++ List.replicate (k - l.length) false := by
  induction l with
  | nil => intro k _; simp [byteOfBits, bitsN_zero]
  | cons b t ih =>
    intro k hk
    match k with
    | kk + 1 =>
      have hmod : ((if b then 1 else 0) + 2 * byteOfBits t) % 2 = if b then 1 else 0 := by
        cases b <;> simp [Nat.add_mul_mod_self_left]
      have hdiv : ((if b then 1 else 0) + 2 * byteOfBits t) / 2 = byteOfBits t := by
        cases b <;> omega
      have hlen : t.length ≤ kk := by simpa using hk
      simp only [bitsN, byteOfBits, hmod, hdiv, ih kk hlen]
      cases b <;> simp [List.replicate]

theorem packBitsN_nil (k : Nat) : packBitsN k [] = [] := by
  cases k <;> rfl

theorem packBitsN_length (k : Nat) :
    ∀ bits : List Bool, bits.length ≤ k → (packBitsN k bits).length = (bits.length + 7) / 8 := by
  induction k with
  | zero => intro bits h; simp at h; simp [packBitsN, h]
  | succ k ih =>
    intro bits h
    match bits with
    | [] => simp [packBitsN]
    | b :: t =>
      have hdrop : (t.drop 7).length ≤ k := by
        simp only [List.length_drop]
        simp at h; omega
      have : (b :: t).drop 8 = t.drop 7 := by simp
      simp only [packBitsN, this, List.length_cons, ih (t.drop 7) hdrop]
      simp only [List.length_drop]
      omega

theorem unpack_packBitsN (k : Nat) :
    ∀ bits : List Bool, bits.length ≤ k →
      ((packBitsN k bits).flatMap (bitsN 8)).take bits.length = bits := by
  induction k with
  | zero => intro bits h; simp at h; simp [packBitsN, h]
  | succ k ih =>
    intro bits h
    match bits with
    | [] => simp [packBitsN]
    | b :: t =>
      by_cases hle : (b :: t).length ≤ 8
      · have htk : (b :: t).take 8 = b :: t := List.take_of_length_le hle
        have hdr : (b :: t).drop 8 = [] := List.drop_of_length_le hle
        have hfirst : bitsN 8 (byteOfBits (b :: t)) =
            (b :: t) ++ List.replicate (8 - (b :: t).length) false :=
          bitsN_byteOfBits (b :: t) 8 hle
        simp only [packBitsN, htk, hdr, packBitsN_nil, List.flatMap_cons, List.flatMap_nil,
          List.append_nil, hfirst]
        exact List.take_left (b :: t) _
      · have hlen8 : ((b :: t).take 8).length = 8 := by
          rw [List.length_take]; omega
        have hfirst : bitsN 8 (byteOfBits ((b :: t).take 8)) = (b :: t).take 8 := by
          rw [bitsN_byteOfBits ((b :: t).take 8) 8 (le_of_eq hlen8), hlen8]
          simp
        have hdroplen : ((b :: t).drop 8).length ≤ k := by
          rw [List.length_drop]
          simp only [List.length_cons] at h ⊢
          omega
        simp only [packBitsN, List.flatMap_cons, hfirst]
        rw [List.take_append_eq_append_take, hlen8]
        have h2 : ((b :: t).take 8).take (b :: t).length = (b :: t).take 8 := by
          rw [List.take_take]
          have hmin : min (b :: t).length 8 = 8 := by
            simp only [List.length_cons] at hle ⊢; omega
          rw [hmin]
        have h3 : (b :: t).length - 8 = ((b :: t).drop 8).length := by
          rw [List.length_drop]
        rw [h2, h3, ih ((b :: t).drop 8) hdroplen]
        exact List.take_append_drop 8 (b :: t)

theorem bitvecDecode_encode (bits : List Bool) (rest : List Nat)
    (h : bits.length < 2 ^ 32) :
    bitvecDecode (bitvecEncode bits ++ rest) = some (bits, rest) := by
  have hlen : bits.length ≤ 2 ^ 32 - 1 := by omega
  have hpack : (packBits bits).length = (bits.length + 7) / 8 :=
    packBitsN_length bits.length bits (Nat.le_refl _)
  simp only [bitvecDecode, bitvecEncode, List.append_assoc,
    varintDecodeBounded_encode (2 ^ 32 - 1) bits.length (packBits bits ++ rest) hlen]
  have hbytes : (bits.length + 7) / 8 ≤ (packBits bits ++ rest).length := by
    simp [List.length_append, hpack]
  simp only [hbytes, if_true]
  have htake : (packBits bits ++ rest).take ((bits.length + 7) / 8) = packBits bits := by
    rw [← hpack]
    exact List.take_left (packBits bits) rest
  have hdrop : (packBits bits ++ rest).drop ((bits.length + 7) / 8) = rest := by
    rw [← hpack]
    exact List.drop_left (packBits bits) rest
  rw [htake, hdrop]
  have := unpack_packBitsN bits.length bits (Nat.le_refl _)
  simp only [packBits] at *
  rw [this]

/-! ## Option-hash and completeness-byte lemmas -/

theorem optHashDecode_encode (o : Option Nat) (rest : List Nat)
    (h : ∀ x ∈ o, x < 2 ^ 256) :
    optHashDecode (optHashEncode o ++ rest) = some (o, rest) := by
  match o with
  | none => simp [optHashEncode, optHashDecode]
  | some v =>
    have hv : v < 2 ^ 256 := h v rfl
    simp [optHashEncode, optHashDecode, hashDecode_toBytes v rest hv]

theorem completeDecode_encode (c : Bool) (rest : List Nat) :
    completeDecode ((if c then 1 else 0) :: rest) = some (c, rest) := by
  cases c <;> simp [completeDecode]

/-! ## Collection-entry lemmas -/

theorem readRollEntries_encode (entries : List (Nat × Nat)) (rest : List Nat)
    (h : ∀ e ∈ entries, e.1 < 2 ^ 256 ∧ e.2 < 2 ^ 64) :
    readRollEntries entries.length
      ((entries.flatMap fun e => addressEncode e.1 ++ varintEncode e.2) ++ rest) =
      some (entries, rest) := by
  induction entries with
  | nil => simp [readRollEntries]
  | cons e t ih =>
    have he := h e (List.mem_cons_self e t)
    have hc : e.2 ≤ U64MAX := by
      have := he.2
      simp only [U64MAX]; omega
    simp only [List.flatMap_cons, List.length_cons, List.append_assoc]
    simp only [readRollEntries, addressDecode_encode e.1 _ he.1,
      varintDecodeBounded_encode U64MAX e.2 _ hc,
      ih fun x hx => h x (List.mem_cons_of_mem e hx)]

theorem rollsDeserialize_encode (max : Nat) (entries : List (Nat × Nat)) (rest : List Nat)
    (hlen : entries.length ≤ max)
    (h : ∀ e ∈ entries, e.1 < 2 ^ 256 ∧ e.2 < 2 ^ 64) :
    rollsDeserialize max (rollsEncode entries ++ rest) = some (entries, rest) := by
  simp only [rollsDeserialize, rollsEncode, List.append_assoc,
    varintDecodeBounded_encode max entries.length _ hlen,
    readRollEntries_encode entries rest h]

theorem readStatsEntries_encode (entries : List (Nat × ProductionStats)) (rest : List Nat)
    (h : ∀ e ∈ entries, e.1 < 2 ^ 256 ∧ e.2.block_success_count < 2 ^ 64 ∧
      e.2.block_failure_count < 2 ^ 64) :
    readStatsEntries entries.length
      ((entries.flatMap fun e => addressEncode e.1 ++ (varintEncode e.2.block_success_count ++
        varintEncode e.2.block_failure_count)) ++ rest) =
      some (entries, rest) := by
  induction entries with
  | nil => simp [readStatsEntries]
  | cons e t ih =>
    have he := h e (List.mem_cons_self e t)
    have hs : e.2.block_success_count ≤ U64MAX := by
      have := he.2.1
      simp only [U64MAX]; omega
    have hf : e.2.block_failure_count ≤ U64MAX := by
      have := he.2.2
      simp only [U64MAX]; omega
    simp only [List.flatMap_cons, List.length_cons, List.append_assoc]
    simp only [readStatsEntries, addressDecode_encode e.1 _ he.1,
      varintDecodeBounded_encode U64MAX e.2.block_success_count _ hs,
      varintDecodeBounded_encode U64MAX e.2.block_failure_count _ hf,
      ih fun x hx => h x (List.mem_cons_of_mem e hx)]

theorem prodStatsDeserialize_encode (max : Nat) (entries : List (Nat × ProductionStats))
    (rest : List Nat) (hlen : entries.length ≤ max)
    (h : ∀ e ∈ entries, e.1 < 2 ^ 256 ∧ e.2.block_success_count < 2 ^ 64 ∧
      e.2.block_failure_count < 2 ^ 64) :
    prodStatsDeserialize max (prodStatsEncode entries ++ rest) =
      some (psCollect entries, rest) := by
  simp only [prodStatsDeserialize, prodStatsEncode, List.append_assoc,
    varintDecodeBounded_encode max entries.length _ hlen,
    readStatsEntries_encode entries rest h]

/-! ## Whole-message deserialization -/

theorem cycleInfoDeserialize_sections (maxR maxP cyc : Nat) (complete : Bool)
    (rolls : List (Nat × Nat)) (seed : List Bool) (stats : List (Nat × ProductionStats))
    (snap : Option Nat) (rest : List Nat)
    (hc : cyc < 2 ^ 64)
    (hrl : rolls.length ≤ maxR)
    (hr : ∀ e ∈ rolls, e.1 < 2 ^ 256 ∧ e.2 < 2 ^ 64)
    (hseed : seed.length < 2 ^ 32)
    (hsl : stats.length ≤ maxP)
    (hs : ∀ e ∈ stats, e.1 < 2 ^ 256 ∧ e.2.block_success_count < 2 ^ 64 ∧
      e.2.block_failure_count < 2 ^ 64)
    (hsnap : optBound snap) :
    cycleInfoDeserialize maxR maxP
      (varintEncode cyc ++ (if complete then 1 else 0) ::
        (rollsEncode rolls ++ bitvecEncode seed ++ prodStatsEncode stats ++
          optHashEncode snap ++ rest)) =
      some (mkCycleInfo cyc complete (btreeCollect rolls) seed (psCollect stats) snap, rest) := by
  have hcu : cyc ≤ U64MAX := by simp only [U64MAX]; omega
  have e1 := varintDecodeBounded_encode U64MAX cyc
    ((if complete then 1 else 0) :: (rollsEncode rolls ++ (bitvecEncode seed ++
      (prodStatsEncode stats ++ (optHashEncode snap ++ rest))))) hcu
  have e2 := completeDecode_encode complete (rollsEncode rolls ++ (bitvecEncode seed ++
    (prodStatsEncode stats ++ (optHashEncode snap ++ rest))))
  have e3 := rollsDeserialize_encode maxR rolls (bitvecEncode seed ++
    (prodStatsEncode stats ++ (optHashEncode snap ++ rest))) hrl hr
  have e4 := bitvecDecode_encode seed (prodStatsEncode stats ++ (optHashEncode snap ++ rest))
    hseed
  have e5 := prodStatsDeserialize_encode maxP stats (optHashEncode snap ++ rest) hsl hs
  have e6 := optHashDecode_encode snap rest hsnap
  simp only [cycleInfoDeserialize, List.append_assoc, List.cons_append,
    e1, e2, e3, e4, e5, e6, mkCycleInfo]

/-! ## Collected-map lemmas -/

theorem btreeInsert_fresh {α : Type} (m : List (Nat × α)) (k : Nat) (v : α)
    (h : ∀ e ∈ m, e.1 < k) : btreeInsert m k v = m ++ [(k, v)] := by
  induction m with
  | nil => rfl
  | cons e t ih =>
    have he : e.1 < k := h e (List.mem_cons_self e t)
    have h1 : ¬ k < e.1 := by omega
    have h2 : ¬ k = e.1 := by omega
    simp only [btreeInsert, h1, h2, if_false, List.cons_append, List.cons.injEq, true_and]
    exact ih fun x hx => h x (List.mem_cons_of_mem e hx)

theorem btreeCollect_aux_sorted {α : Type} (l : List (Nat × α)) :
    ∀ m : List (Nat × α), SortedKeys (m ++ l) →
      l.foldl (fun acc e => btreeInsert acc e.1 e.2) m = m ++ l := by
  induction l with
  | nil => intro m _; simp
  | cons e t ih =>
    intro m h
    have hfresh : ∀ x ∈ m, x.1 < e.1 := by
      have h' : List.Pairwise (fun a b => a.1 < b.1) (m ++ e :: t) := h
      rw [List.pairwise_append] at h'
      exact fun x hx => h'.2.2 x hx e (List.mem_cons_self e t)
    have hins : btreeInsert m e.1 e.2 = m ++ [e] := by
      rw [btreeInsert_fresh m e.1 e.2 hfresh]
    have hsort : SortedKeys ((m ++ [e]) ++ t) := by
      simpa [List.append_assoc] using h
    calc (e :: t).foldl (fun acc x => btreeInsert acc x.1 x.2) m
        = t.foldl (fun acc x => btreeInsert acc x.1 x.2) (m ++ [e]) := by
          simp [List.foldl_cons, hins]
      _ = (m ++ [e]) ++ t := ih (m ++ [e]) hsort
      _ = m ++ e :: t := by simp

theorem btreeCollect_sorted {α : Type} (l : List (Nat × α)) (h : SortedKeys l) :
    btreeCollect l = l := by
  have := btreeCollect_aux_sorted l [] (by simpa using h)
  simpa [btreeCollect] using this

theorem psInsert_fresh {α : Type} (m : List (Nat × α)) (k : Nat) (v : α)
    (h : ∀ e ∈ m, e.1 ≠ k) : psInsert m k v = m ++ [(k, v)] := by
  induction m with
  | nil => rfl
  | cons e t ih =>
    have he : e.1 ≠ k := h e (List.mem_cons_self e t)
    have h1 : ¬ k = e.1 := fun hk => he hk.symm
    simp only [psInsert, h1, if_false, List.cons_append, List.cons.injEq, true_and]
    exact ih fun x hx => h x (List.mem_cons_of_mem e hx)

theorem psCollect_aux_nodup {α : Type} (l : List (Nat × α)) :
    ∀ m : List (Nat × α), NoDupKeys (m ++ l) →
      l.foldl (fun acc e => psInsert acc e.1 e.2) m = m ++ l := by
  induction l with
  | nil => intro m _; simp
  | cons e t ih =>
    intro m h
    have hmap : ((m ++ e :: t).map Prod.fst).Nodup := h
    have hfresh : ∀ x ∈ m, x.1 ≠ e.1 := by
      intro x hx heq
      rw [List.map_append, List.nodup_append] at hmap
      refine hmap.2.2 (List.mem_map_of_mem Prod.fst hx) ?_
      rw [heq]
      simp
    have hins : psInsert m e.1 e.2 = m ++ [e] := by
      rw [psInsert_fresh m e.1 e.2 hfresh]
    have hnod : NoDupKeys ((m ++ [e]) ++ t) := by
      simpa [NoDupKeys, List.append_assoc] using h
    calc (e :: t).foldl (fun acc x => psInsert acc x.1 x.2) m
        = t.foldl (fun acc x => psInsert acc x.1 x.2) (m ++ [e]) := by
          simp [List.foldl_cons, hins]
      _ = (m ++ [e]) ++ t := ih (m ++ [e]) hnod
      _ = m ++ e :: t := by simp

theorem psCollect_nodup {α : Type} (l : List (Nat × α)) (h : NoDupKeys l) :
    psCollect l = l := by
  have := psCollect_aux_nodup l [] (by simpa [NoDupKeys] using h)
  simpa [psCollect] using this

/-! ## Lookup lemmas for the collected `BTreeMap` -/

theorem alookup_btreeInsert {α : Type} (m : List (Nat × α)) (k : Nat) (v : α) (a : Nat) :
    alookup (btreeInsert m k v) a = if a = k then some v else alookup m a := by
  induction m with
  | nil => simp [btreeInsert, alookup]
  | cons e t ih =>
    by_cases h1 : k < e.1
    · simp [btreeInsert, h1, alookup]
    · by_cases h2 : k = e.1
      · by_cases h3 : a = k
        · simp [btreeInsert, h1, h2, alookup, h3]
        · have h4 : ¬ a = e.1 := by rw [← h2]; exact h3
          simp [btreeInsert, h1, h2, alookup, h3, h4]
      · by_cases h3 : a = e.1
        · have h4 : ¬ a = k := fun hh => h2 (by rw [← hh, h3])
          have h5 : ¬ e.1 = k := fun hh => h2 hh.symm
          simp [btreeInsert, h1, h2, alookup, h3, h4, h5]
        · simp [btreeInsert, h1, h2, alookup, h3, ih]

theorem alookup_foldl_btreeInsert {α : Type} (l : List (Nat × α)) :
    ∀ (m : List (Nat × α)) (a : Nat),
      alookup (l.foldl (fun acc e => btreeInsert acc e.1 e.2) m) a =
        l.foldl (fun acc e => if e.1 = a then some e.2 else acc) (alookup m a) := by
  induction l with
  | nil => intro m a; rfl
  | cons e t ih =>
    intro m a
    simp only [List.foldl_cons]
    rw [ih (btreeInsert m e.1 e.2) a, alookup_btreeInsert]
    have hiff : (if a = e.1 then some e.2 else alookup m a) =
        (if e.1 = a then some e.2 else alookup m a) := by
      by_cases h : a = e.1
      · simp [h]
      · have h' : ¬ e.1 = a := fun hh => h hh.symm
        simp [h, h']
    rw [hiff]

theorem alookup_btreeCollect {α : Type} (l : List (Nat × α)) (a : Nat) :
    alookup (btreeCollect l) a = lastAssoc l a := by
  have := alookup_foldl_btreeInsert l [] a
  simpa [btreeCollect, lastAssoc, alookup] using this

theorem mem_btreeInsert {α : Type} (m : List (Nat × α)) (k : Nat) (v : α) :
    ∀ e ∈ btreeInsert m k v, e ∈ m ∨ e = (k, v) := by
  induction m with
  | nil =>
    intro e he
    simp only [btreeInsert, List.mem_singleton] at he
    right; exact he
  | cons x t ih =>
    intro e he
    by_cases h1 : k < x.1
    · simp only [btreeInsert, h1, if_true, List.mem_cons] at he
      rcases he with rfl | he
      · right; rfl
      · left; exact List.mem_cons.mpr he
    · by_cases h2 : k = x.1
      · simp only [btreeInsert] at he
        rw [if_neg h1, if_pos h2] at he
        rcases List.mem_cons.mp he with rfl | he
        · right; rfl
        · left; exact List.mem_cons_of_mem x he
      · simp only [btreeInsert] at he
        rw [if_neg h1, if_neg h2] at he
        rcases List.mem_cons.mp he with rfl | he
        · left; exact List.mem_cons_self x t
        · rcases ih e he with h | h
          · left; exact List.mem_cons_of_mem x h
          · right; exact h

theorem sortedKeys_btreeInsert {α : Type} (m : List (Nat × α)) (k : Nat) (v : α)
    (h : SortedKeys m) : SortedKeys (btreeInsert m k v) := by
  induction m with
  | nil => simp [btreeInsert, SortedKeys]
  | cons x t ih =>
    have hx : ∀ y ∈ t, x.1 < y.1 := (List.pairwise_cons.mp h).1
    have ht : SortedKeys t := (List.pairwise_cons.mp h).2
    by_cases h1 : k < x.1
    · simp only [btreeInsert, h1, if_true]
      refine List.Pairwise.cons ?_ h
      intro y hy
      rcases List.mem_cons.mp hy with rfl | hy'
      · exact h1
      · exact lt_trans h1 (hx y hy')
    · by_cases h2 : k = x.1
      · simp only [btreeInsert]
        rw [if_neg h1, if_pos h2]
        refine List.Pairwise.cons ?_ ht
        intro y hy
        show k < y.1
        rw [h2]
        exact hx y hy
      · simp only [btreeInsert]
        rw [if_neg h1, if_neg h2]
        refine List.Pairwise.cons ?_ (ih ht)
        intro y hy
        rcases mem_btreeInsert t k v y hy with hmem | hmem
        · exact hx y hmem
        · rw [hmem]
          show x.1 < k
          omega

theorem sortedKeys_btreeCollect {α : Type} (l : List (Nat × α)) :
    SortedKeys (btreeCollect l) := by
  suffices haux : ∀ m, SortedKeys m →
      SortedKeys (l.foldl (fun acc e => btreeInsert acc e.1 e.2) m) from
    haux [] List.Pairwise.nil
  induction l with
  | nil => intro m hm; exact hm
  | cons e t ih =>
    intro m hm
    exact ih (btreeInsert m e.1 e.2) (sortedKeys_btreeInsert m e.1 e.2 hm)

theorem nodupKeys_of_sortedKeys {α : Type} (l : List (Nat × α)) (h : SortedKeys l) :
    NoDupKeys l := by
  have hne : List.Pairwise (fun a b : Nat × α => a.1 ≠ b.1) l :=
    h.imp fun hlt => Nat.ne_of_lt hlt
  exact List.pairwise_map.mpr hne

theorem alookup_some_mem {α : Type} (m : List (Nat × α)) (a : Nat) (v : α)
    (h : alookup m a = some v) : a ∈ m.map Prod.fst := by
  induction m with
  | nil => simp [alookup] at h
  | cons e t ih =>
    by_cases h1 : a = e.1
    · simp [h1]
    · simp only [alookup, h1, if_false] at h
      exact List.mem_cons_of_mem e.1 (ih h)

theorem foldl_lastUpdate_isSome {α : Type} (l : List (Nat × α)) (a : Nat) :
    ∀ init : Option α, (a ∈ l.map Prod.fst ∨ init.isSome) →
      (l.foldl (fun acc e => if e.1 = a then some e.2 else acc) init).isSome := by
  induction l with
  | nil =>
    intro init hi
    rcases hi with hi | hi
    · simp at hi
    · simpa using hi
  | cons e t ih =>
    intro init hi
    simp only [List.foldl_cons]
    by_cases h1 : e.1 = a
    · exact ih _ (Or.inr (by simp [h1]))
    · apply ih
      rcases hi with hi | hi
      · rw [List.map_cons, List.mem_cons] at hi
        rcases hi with hi | hi
        · exact absurd hi.symm h1
        · exact Or.inl hi
      · exact Or.inr (by simpa [h1] using hi)

theorem lastAssoc_isSome {α : Type} (l : List (Nat × α)) (a : Nat)
    (h : a ∈ l.map Prod.fst) : (lastAssoc l a).isSome :=
  foldl_lastUpdate_isSome l a none (Or.inl h)

/-! ## Claim theorems -/

theorem foldl_xor_perm (l₁ l₂ : List Nat) (p : List.Perm l₁ l₂) :
    l₁.foldl Nat.xor 0 = l₂.foldl Nat.xor 0 :=
  p.foldl_eq' (fun x _ y _ z => by
    show z ^^^ x ^^^ y = z ^^^ y ^^^ x
    rw [Nat.xor_assoc, Nat.xor_assoc, Nat.xor_comm x y]) 0

/-- C1: For every cycle index, completeness flag, rng seed, and every
pair of sequences of (address, roll count) and (address,
ProductionStats) entries that contain the same entries in different
orders, `CycleInfo::new_with_hash` produces identical
`roll_counts_hash`, `production_stats_hash` and `cycle_global_hash`
(the XOR fold over per-entry hashes is independent of
insertion/iteration order). -/
theorem c1_new_with_hash_order_independent (cycle : Nat) (complete : Bool)
    (rng_seed : List Bool) (rolls₁ rolls₂ : List (Nat × Nat))
    (stats₁ stats₂ : List (Nat × ProductionStats))
    (hr : List.Perm rolls₁ rolls₂) (hp : List.Perm stats₁ stats₂) :
    (new_with_hash cycle complete rolls₁ rng_seed stats₁).roll_counts_hash =
      (new_with_hash cycle complete rolls₂ rng_seed stats₂).roll_counts_hash ∧
    (new_with_hash cycle complete rolls₁ rng_seed stats₁).production_stats_hash =
      (new_with_hash cycle complete rolls₂ rng_seed stats₂).production_stats_hash ∧
    (new_with_hash cycle complete rolls₁ rng_seed stats₁).cycle_global_hash =
      (new_with_hash cycle complete rolls₂ rng_seed stats₂).cycle_global_hash := by
  have h1 : (rolls₁.map fun e => compute_roll_entry_hash e.1 e.2).foldl Nat.xor 0 =
      (rolls₂.map fun e => compute_roll_entry_hash e.1 e.2).foldl Nat.xor 0 :=
    foldl_xor_perm _ _ (hr.map _)
  have h2 : (stats₁.map fun e => compute_prod_stats_entry_hash e.1 e.2).foldl Nat.xor 0 =
      (stats₂.map fun e => compute_prod_stats_entry_hash e.1 e.2).foldl Nat.xor 0 :=
    foldl_xor_perm _ _ (hp.map _)
  refine ⟨?_, ?_, ?_⟩ <;> simp [new_with_hash, h1, h2]

/-- C1 witness: a concrete pair of reorderings of the same roll and
production-stats entries yields identical aggregate and global
hashes. -/
theorem c1_witness :
    (new_with_hash 5 false [(1, 10), (2, 20)] [true] [(7, ⟨3, 4⟩), (8, ⟨1, 1⟩)]).roll_counts_hash =
      (new_with_hash 5 false [(2, 20), (1, 10)] [true]
        [(8, ⟨1, 1⟩), (7, ⟨3, 4⟩)]).roll_counts_hash ∧
    (new_with_hash 5 false [(1, 10), (2, 20)] [true]
        [(7, ⟨3, 4⟩), (8, ⟨1, 1⟩)]).production_stats_hash =
      (new_with_hash 5 false [(2, 20), (1, 10)] [true]
        [(8, ⟨1, 1⟩), (7, ⟨3, 4⟩)]).production_stats_hash ∧
    (new_with_hash 5 false [(1, 10), (2, 20)] [true]
        [(7, ⟨3, 4⟩), (8, ⟨1, 1⟩)]).cycle_global_hash =
      (new_with_hash 5 false [(2, 20), (1, 10)] [true]
        [(8, ⟨1, 1⟩), (7, ⟨3, 4⟩)]).cycle_global_hash :=
  c1_new_with_hash_order_independent 5 false [true] [(1, 10), (2, 20)] [(2, 20), (1, 10)]
    [(7, ⟨3, 4⟩), (8, ⟨1, 1⟩)] [(8, ⟨1, 1⟩), (7, ⟨3, 4⟩)]
    (List.Perm.swap ((2 : Nat), (20 : Nat)) (1, 10) [])
    (List.Perm.swap ((8 : Nat), ProductionStats.mk 1 1) (7, ProductionStats.mk 3 4) [])

set_option maxRecDepth 8000 in
/-- C2: `CycleInfo::new_with_hash` computes `roll_counts_hash` and
`production_stats_hash` as the exclusive-OR fold of the per-entry
hashes from the all-zero accumulator, computes `cycle_global_hash` as
the hash of the concatenation `hash(cycle) || hash(complete) ||
hash(rng_seed) || roll_counts_hash bytes || production_stats_hash
bytes`, and leaves `final_state_hash_snapshot` unset. -/
theorem c2_new_with_hash_formula (cycle : Nat) (complete : Bool)
    (roll_counts : List (Nat × Nat)) (rng_seed : List Bool)
    (production_stats : List (Nat × ProductionStats)) :
    (new_with_hash cycle complete roll_counts rng_seed production_stats).roll_counts_hash =
      xorAggregate (roll_counts.map fun e => compute_roll_entry_hash e.1 e.2) ∧
    (new_with_hash cycle complete roll_counts rng_seed
        production_stats).production_stats_hash =
      xorAggregate (production_stats.map fun e => compute_prod_stats_entry_hash e.1 e.2) ∧
    (new_with_hash cycle complete roll_counts rng_seed production_stats).cycle_global_hash =
      hashCompute (hashToBytes (compute_cycle_hash cycle) ++
        hashToBytes (compute_complete_hash complete) ++
        hashToBytes (compute_seed_hash rng_seed) ++
        hashToBytes (xorAggregate (roll_counts.map fun e =>
          compute_roll_entry_hash e.1 e.2)) ++
        hashToBytes (xorAggregate (production_stats.map fun e =>
          compute_prod_stats_entry_hash e.1 e.2))) ∧
    (new_with_hash cycle complete roll_counts rng_seed
        production_stats).final_state_hash_snapshot = none := by
  refine ⟨rfl, rfl, rfl, rfl⟩

/-- C7: `ProductionStats::extend` adds the other value's counters with
saturating `u64` addition: each resulting counter is
`min (self + other) u64::MAX`, a counter already at `u64::MAX` stays
there, and no counter ever wraps below its starting value or above
`u64::MAX`. -/
theorem c7_extend_saturating (s t : ProductionStats)
    (hs1 : s.block_success_count ≤ U64MAX) (hf1 : s.block_failure_count ≤ U64MAX) :
    (s.extend t).block_success_count =
      min (s.block_success_count + t.block_success_count) U64MAX ∧
    (s.extend t).block_failure_count =
      min (s.block_failure_count + t.block_failure_count) U64MAX ∧
    s.block_success_count ≤ (s.extend t).block_success_count ∧
    s.block_failure_count ≤ (s.extend t).block_failure_count ∧
    (s.extend t).block_success_count ≤ U64MAX ∧
    (s.extend t).block_failure_count ≤ U64MAX ∧
    (s.block_success_count = U64MAX → (s.extend t).block_success_count = U64MAX) ∧
    (s.block_failure_count = U64MAX → (s.extend t).block_failure_count = U64MAX) := by
  refine ⟨rfl, rfl, ?_, ?_, ?_, ?_, ?_, ?_⟩ <;>
    simp only [ProductionStats.extend, saturatingAdd] <;> omega

/-- C7 witness: a counter at `u64::MAX` is left at `u64::MAX` by
`extend`, and ordinary counters add. -/
theorem c7_witness :
    (ProductionStats.extend ⟨U64MAX, 3⟩ ⟨5, 4⟩).block_success_count =
      min (U64MAX + 5) U64MAX ∧
    (ProductionStats.extend ⟨U64MAX, 3⟩ ⟨5, 4⟩).block_failure_count = min (3 + 4) U64MAX ∧
    3 ≤ (ProductionStats.extend ⟨U64MAX, 3⟩ ⟨5, 4⟩).block_success_count ∧
    (ProductionStats.extend ⟨U64MAX, 3⟩ ⟨5, 4⟩).block_success_count = U64MAX := by
  have h := c7_extend_saturating ⟨U64MAX, 3⟩ ⟨5, 4⟩ (by decide) (by decide)
  exact ⟨h.1, h.2.1, le_trans (by decide) h.2.2.1, h.2.2.2.2.2.2.1 rfl⟩

/-- C3: for every `CycleInfo` within the configured decoder bounds,
deserializing the bytes produced by `CycleInfoSerializer::serialize`
succeeds, consumes exactly those bytes (any trailing bytes are left as
the unconsumed remainder), and returns a `CycleInfo` equal to the
original in every field, including the recomputed hash fields and the
snapshot. -/
theorem c3_roundtrip (maxR maxP : Nat) (x : CycleInfo) (rest : List Nat)
    (h : CycleInfoWF maxR maxP x) :
    cycleInfoDeserialize maxR maxP (cycleInfoSerialize x ++ rest) = some (x, rest) := by
  obtain ⟨h1, h2, h3, h4, h5, h6, h7, h8, h9, h10⟩ := h
  have hshape : cycleInfoSerialize x ++ rest =
      varintEncode x.cycle ++ (if x.complete then 1 else 0) ::
        (rollsEncode x.roll_counts ++ bitvecEncode x.rng_seed ++
          prodStatsEncode x.production_stats ++
          optHashEncode x.final_state_hash_snapshot ++ rest) := by
    simp [cycleInfoSerialize, List.append_assoc, List.cons_append]
  rw [hshape, cycleInfoDeserialize_sections maxR maxP x.cycle x.complete x.roll_counts
    x.rng_seed x.production_stats x.final_state_hash_snapshot rest h1 h4 h3 h5 h8 h7 h9,
    btreeCollect_sorted x.roll_counts h2, psCollect_nodup x.production_stats h6, ← h10]

set_option maxRecDepth 100000 in
/-- C3 witness: a concrete well-formed `CycleInfo` with two roll
entries, a three-bit seed, one production-stats entry and a snapshot
hash round-trips through the codec, leaving the trailing bytes. -/
theorem c3_witness :
    CycleInfoWF 10 10 (mkCycleInfo 5 false [(1, 10), (2, 20)] [true, false, true]
      [(7, ProductionStats.mk 3 4)] (some 99)) ∧
    cycleInfoDeserialize 10 10 (cycleInfoSerialize (mkCycleInfo 5 false [(1, 10), (2, 20)]
        [true, false, true] [(7, ProductionStats.mk 3 4)] (some 99)) ++ [1, 2]) =
      some (mkCycleInfo 5 false [(1, 10), (2, 20)] [true, false, true]
        [(7, ProductionStats.mk 3 4)] (some 99), [1, 2]) :=
  ⟨by decide, c3_roundtrip 10 10 _ [1, 2] (by decide)⟩

set_option maxRecDepth 100000 in
/-- C4: every `CycleInfo` returned by a successful
`CycleInfoDeserializer::deserialize` has `roll_counts_hash`,
`production_stats_hash` and `cycle_global_hash` equal to the values
`CycleInfo::new_with_hash` computes from the decoded `cycle`,
`complete`, `roll_counts`, `rng_seed` and `production_stats` fields:
the hash fields are recomputed, never taken from the input bytes. -/
theorem c4_hashes_recomputed (maxR maxP : Nat) (bs : List Nat) (c : CycleInfo)
    (rem : List Nat) (h : cycleInfoDeserialize maxR maxP bs = some (c, rem)) :
    c.roll_counts_hash = (new_with_hash c.cycle c.complete c.roll_counts c.rng_seed
      c.production_stats).roll_counts_hash ∧
    c.production_stats_hash = (new_with_hash c.cycle c.complete c.roll_counts c.rng_seed
      c.production_stats).production_stats_hash ∧
    c.cycle_global_hash = (new_with_hash c.cycle c.complete c.roll_counts c.rng_seed
      c.production_stats).cycle_global_hash := by
  unfold cycleInfoDeserialize at h
  split at h
  · simp at h
  · split at h
    · simp at h
    · split at h
      · simp at h
      · split at h
        · simp at h
        · split at h
          · simp at h
          · split at h
            · simp at h
            · simp only [Option.some.injEq, Prod.mk.injEq] at h
              obtain ⟨hc, hrem⟩ := h
              subst hc
              exact ⟨rfl, rfl, rfl⟩

set_option maxRecDepth 100000 in
/-- C4 witness: the hash fields of a concretely decoded `CycleInfo`
agree with the constructor's recomputation from its data fields. -/
theorem c4_witness :
    (mkCycleInfo 1 true [(1, 2)] [] [] none).roll_counts_hash =
      (new_with_hash (mkCycleInfo 1 true [(1, 2)] [] [] none).cycle
        (mkCycleInfo 1 true [(1, 2)] [] [] none).complete
        (mkCycleInfo 1 true [(1, 2)] [] [] none).roll_counts
        (mkCycleInfo 1 true [(1, 2)] [] [] none).rng_seed
        (mkCycleInfo 1 true [(1, 2)] [] [] none).production_stats).roll_counts_hash ∧
    (mkCycleInfo 1 true [(1, 2)] [] [] none).production_stats_hash =
      (new_with_hash (mkCycleInfo 1 true [(1, 2)] [] [] none).cycle
        (mkCycleInfo 1 true [(1, 2)] [] [] none).complete
        (mkCycleInfo 1 true [(1, 2)] [] [] none).roll_counts
        (mkCycleInfo 1 true [(1, 2)] [] [] none).rng_seed
        (mkCycleInfo 1 true [(1, 2)] [] [] none).production_stats).production_stats_hash ∧
    (mkCycleInfo 1 true [(1, 2)] [] [] none).cycle_global_hash =
      (new_with_hash (mkCycleInfo 1 true [(1, 2)] [] [] none).cycle
        (mkCycleInfo 1 true [(1, 2)] [] [] none).complete
        (mkCycleInfo 1 true [(1, 2)] [] [] none).roll_counts
        (mkCycleInfo 1 true [(1, 2)] [] [] none).rng_seed
        (mkCycleInfo 1 true [(1, 2)] [] [] none).production_stats).cycle_global_hash :=
  c4_hashes_recomputed 10 10
    (cycleInfoSerialize (mkCycleInfo 1 true [(1, 2)] [] [] none))
    (mkCycleInfo 1 true [(1, 2)] [] [] none) [] (by decide)

/-- C5: decoding a length-prefixed collection (`roll_counts`,
`production_stats`, or the cycle-history sequence) whose declared
element count exceeds the configured maximum returns a decode error
when reading the length prefix: the error occurs for every possible
continuation of the byte stream, i.e. before any declared element is
read or stored. -/
theorem c5_length_bound_rejected (max maxR maxP n : Nat) (rest : List Nat) (h : max < n) :
    rollsDeserialize max (varintEncode n ++ rest) = none ∧
    prodStatsDeserialize max (varintEncode n ++ rest) = none ∧
    cycleHistoryDeserialize max maxR maxP (varintEncode n ++ rest) = none := by
  have hv := varintDecodeBounded_encode_gt max n rest h
  refine ⟨?_, ?_, ?_⟩ <;>
    simp [rollsDeserialize, prodStatsDeserialize, cycleHistoryDeserialize, hv]

/-- C5 witness: a declared count of 3 against a configured maximum of 2
is rejected by all three deserializers whatever bytes follow. -/
theorem c5_witness :
    2 < 3 ∧
    rollsDeserialize 2 (varintEncode 3 ++ [7, 7, 7]) = none ∧
    prodStatsDeserialize 2 (varintEncode 3 ++ [7, 7, 7]) = none ∧
    cycleHistoryDeserialize 2 5 5 (varintEncode 3 ++ [7, 7, 7]) = none :=
  ⟨by decide, (c5_length_bound_rejected 2 5 5 3 [7, 7, 7] (by decide)).1,
    (c5_length_bound_rejected 2 5 5 3 [7, 7, 7] (by decide)).2.1,
    (c5_length_bound_rejected 2 5 5 3 [7, 7, 7] (by decide)).2.2⟩

/-- C6: in the `CycleInfo` wire format the complete flag occupies one
byte right after the cycle varint, `1` encoding `true` and `0`
encoding `false`; the serializer writes exactly that byte, and the
deserializer accepts only bytes `0` and `1` at that position,
returning a decode error for every other byte value. -/
theorem c6_complete_byte :
    (∀ x : CycleInfo, cycleInfoSerialize x =
      varintEncode x.cycle ++ (if x.complete then 1 else 0) ::
        (rollsEncode x.roll_counts ++ bitvecEncode x.rng_seed ++
          prodStatsEncode x.production_stats ++
          optHashEncode x.final_state_hash_snapshot)) ∧
    (∀ rest : List Nat, completeDecode (1 :: rest) = some (true, rest)) ∧
    (∀ rest : List Nat, completeDecode (0 :: rest) = some (false, rest)) ∧
    (∀ b : Nat, b ≠ 0 → b ≠ 1 → ∀ rest : List Nat, completeDecode (b :: rest) = none) ∧
    (∀ maxR maxP cyc b : Nat, cyc < 2 ^ 64 → b ≠ 0 → b ≠ 1 → ∀ rest : List Nat,
      cycleInfoDeserialize maxR maxP (varintEncode cyc ++ b :: rest) = none) := by
  refine ⟨fun x => rfl, fun rest => by simp [completeDecode],
    fun rest => by simp [completeDecode], ?_, ?_⟩
  · intro b h0 h1 rest
    simp [completeDecode, h0, h1]
  · intro maxR maxP cyc b hcyc h0 h1 rest
    have hcu : cyc ≤ U64MAX := by simp only [U64MAX]; omega
    have e1 := varintDecodeBounded_encode U64MAX cyc (b :: rest) hcu
    have e2 : completeDecode (b :: rest) = none := by simp [completeDecode, h0, h1]
    simp [cycleInfoDeserialize, e1, e2]

/-- C6 witness: bytes `1` and `0` decode to `true` and `false`, byte
`2` is rejected, and a full `CycleInfo` decode with completeness byte
`7` fails. -/
theorem c6_witness :
    completeDecode [1, 9] = some (true, [9]) ∧
    completeDecode [0, 9] = some (false, [9]) ∧
    completeDecode [2, 9] = none ∧
    cycleInfoDeserialize 5 5 (varintEncode 3 ++ 7 :: [4, 4]) = none :=
  ⟨c6_complete_byte.2.1 [9], c6_complete_byte.2.2.1 [9],
    c6_complete_byte.2.2.2.1 2 (by decide) (by decide) [9],
    c6_complete_byte.2.2.2.2 5 5 3 7 (by decide) (by decide) (by decide) [4, 4]⟩

/-- C10: an encoded `roll_counts` collection containing two or more
pairs with the same address (within the configured maximum and
otherwise well formed) is not a decode error:
`CycleInfoDeserializer::deserialize` succeeds, and the resulting
`roll_counts` map has exactly one entry for that address, whose count
is the one attached to the last occurrence in the byte stream
(`lastAssoc`). -/
theorem c10_duplicate_roll_addresses (maxR maxP cyc : Nat) (complete : Bool)
    (entries : List (Nat × Nat)) (seed : List Bool)
    (stats : List (Nat × ProductionStats)) (snap : Option Nat) (rest : List Nat) (a : Nat)
    (hc : cyc < 2 ^ 64) (hrl : entries.length ≤ maxR)
    (hr : ∀ e ∈ entries, e.1 < 2 ^ 256 ∧ e.2 < 2 ^ 64)
    (hseed : seed.length < 2 ^ 32) (hsl : stats.length ≤ maxP)
    (hs : ∀ e ∈ stats, e.1 < 2 ^ 256 ∧ e.2.block_success_count < 2 ^ 64 ∧
      e.2.block_failure_count < 2 ^ 64)
    (hsnap : optBound snap)
    (hdup : 2 ≤ (entries.map Prod.fst).count a) :
    cycleInfoDeserialize maxR maxP
      (varintEncode cyc ++ (if complete then 1 else 0) ::
        (rollsEncode entries ++ bitvecEncode seed ++ prodStatsEncode stats ++
          optHashEncode snap ++ rest)) =
      some (mkCycleInfo cyc complete (btreeCollect entries) seed (psCollect stats) snap,
        rest) ∧
    ((btreeCollect entries).map Prod.fst).count a = 1 ∧
    alookup (btreeCollect entries) a = lastAssoc entries a := by
  refine ⟨cycleInfoDeserialize_sections maxR maxP cyc complete entries seed stats snap rest
    hc hrl hr hseed hsl hs hsnap, ?_, alookup_btreeCollect entries a⟩
  have hnodup : NoDupKeys (btreeCollect entries) :=
    nodupKeys_of_sortedKeys _ (sortedKeys_btreeCollect entries)
  have hmem_entries : a ∈ entries.map Prod.fst := by
    have hpos : 0 < (entries.map Prod.fst).count a := by omega
    exact List.count_pos_iff.mp hpos
  obtain ⟨v, hv⟩ := Option.isSome_iff_exists.mp (lastAssoc_isSome entries a hmem_entries)
  have hmem : a ∈ (btreeCollect entries).map Prod.fst :=
    alookup_some_mem _ a v (by rw [alookup_btreeCollect entries a, hv])
  exact List.count_eq_one_of_mem hnodup hmem

set_option maxRecDepth 100000 in
/-- C10 witness: the roll section `[(5, 1), (5, 7)]` (address 5 twice)
decodes successfully; the collected map holds a single entry for
address 5, carrying the last-occurrence count 7. -/
theorem c10_witness :
    2 ≤ (([(5, 1), (5, 7)] : List (Nat × Nat)).map Prod.fst).count 5 ∧
    cycleInfoDeserialize 10 10
      (varintEncode 0 ++ (if false then 1 else 0) ::
        (rollsEncode [(5, 1), (5, 7)] ++ bitvecEncode [] ++ prodStatsEncode [] ++
          optHashEncode none ++ [])) =
      some (mkCycleInfo 0 false (btreeCollect [(5, 1), (5, 7)]) [] (psCollect []) none,
        []) ∧
    ((btreeCollect [(5, 1), (5, 7)]).map Prod.fst).count 5 = 1 ∧
    alookup (btreeCollect [(5, 1), (5, 7)]) 5 = lastAssoc [(5, 1), (5, 7)] 5 ∧
    lastAssoc ([(5, 1), (5, 7)] : List (Nat × Nat)) 5 = some 7 :=
  have h := c10_duplicate_roll_addresses 10 10 0 false [(5, 1), (5, 7)] [] [] none [] 5
    (by decide) (by decide) (by decide) (by decide) (by decide) (by decide) (by decide)
    (by decide)
  ⟨by decide, h.1, h.2.1, h.2.2, by decide⟩

/-- C8 counterexample: the claim quantifies over every
`ProductionStats`, but at `success = 1`, `failure = u64::MAX` the
`u64` addition `block_success_count + block_failure_count` in
`is_satisfying` overflows, so the function does not return the boolean
the ratio formula prescribes (it fails; modelled as `none`). -/
theorem c8_counterexample :
    ProductionStats.is_satisfying ⟨1, U64MAX⟩ ⟨1, 2⟩ = none ∧
    ProductionStats.is_satisfying ⟨1, U64MAX⟩ ⟨1, 2⟩ ≠ some true ∧
    ProductionStats.is_satisfying ⟨1, U64MAX⟩ ⟨1, 2⟩ ≠ some false := by
  refine ⟨by decide, by decide, by decide⟩

/-- C8 (amended): for every `ProductionStats` whose counters sum
within the `u64` range and every `max_miss_ratio` with non-zero
denominator, `is_satisfying` returns `true` when both counters are
zero, and otherwise returns exactly the comparison
`block_failure_count / (block_success_count + block_failure_count) ≤
max_miss_ratio` of rational numbers. -/
theorem c8_is_satisfying_ratio (s : ProductionStats) (r : Ratio) (hden : r.den ≠ 0)
    (hno : s.block_success_count + s.block_failure_count ≤ U64MAX) :
    (s.block_success_count = 0 ∧ s.block_failure_count = 0 →
      s.is_satisfying r = some true) ∧
    (s.block_success_count + s.block_failure_count ≠ 0 →
      s.is_satisfying r = some (decide ((s.block_failure_count : ℚ) /
        ((s.block_success_count : ℚ) + (s.block_failure_count : ℚ)) ≤
        (r.num : ℚ) / (r.den : ℚ)))) := by
  constructor
  · rintro ⟨h1, h2⟩
    simp [ProductionStats.is_satisfying, h1, h2]
  · intro hne
    unfold ProductionStats.is_satisfying
    have hgt : ¬ (s.block_success_count + s.block_failure_count > U64MAX) := by omega
    simp only [hgt, if_false, hne, if_false]
    have hoc : (0 : ℚ) < (s.block_success_count : ℚ) + (s.block_failure_count : ℚ) := by
      have hp : 0 < s.block_success_count + s.block_failure_count :=
        Nat.pos_of_ne_zero hne
      exact_mod_cast hp
    have hdenq : (0 : ℚ) < (r.den : ℚ) := by
      have hp : 0 < r.den := Nat.pos_of_ne_zero hden
      exact_mod_cast hp
    congr 1
    rw [decide_eq_decide, div_le_div_iff₀ hoc hdenq]
    constructor
    · intro hle
      exact_mod_cast hle
    · intro hle
      exact_mod_cast hle

/-- C8 witness: at `success = 1, failure = 9` with
`max_miss_ratio = 1/2` the predicate follows the rational formula and
evaluates to `false`; the ratio-formula value and the direct
evaluation agree. -/
theorem c8_witness :
    (2 : Nat) ≠ 0 ∧ 1 + 9 ≤ U64MAX ∧ (1 : Nat) + 9 ≠ 0 ∧
    ProductionStats.is_satisfying ⟨1, 9⟩ ⟨1, 2⟩ =
      some (decide (((9 : Nat) : ℚ) / (((1 : Nat) : ℚ) + ((9 : Nat) : ℚ)) ≤
        ((1 : Nat) : ℚ) / ((2 : Nat) : ℚ))) ∧
    ProductionStats.is_satisfying ⟨1, 9⟩ ⟨1, 2⟩ = some false ∧
    ProductionStats.is_satisfying ⟨9, 1⟩ ⟨1, 2⟩ = some true ∧
    ProductionStats.is_satisfying ⟨0, 0⟩ ⟨1, 2⟩ = some true :=
  ⟨by decide, by decide, by decide,
    (c8_is_satisfying_ratio ⟨1, 9⟩ ⟨1, 2⟩ (by decide) (by decide)).2 (by decide),
    by decide, by decide, by decide⟩

/-- C9 counterexample: `is_satisfying` is not total over all `u64`
counter values — at `success = u64::MAX, failure = 1` the internal
`u64` sum `block_success_count + block_failure_count` exceeds
`u64::MAX` (it overflows), and the call does not return a boolean
(modelled as `none`). -/
theorem c9_counterexample :
    ProductionStats.is_satisfying ⟨U64MAX, 1⟩ ⟨1, 2⟩ = none ∧
    U64MAX < U64MAX + 1 := by
  refine ⟨by decide, by decide⟩

/-- C9 (amended): `is_satisfying` returns a boolean for every
`ProductionStats` whose counters sum within the `u64` range (the
overflow of `opportunities_count` is the only failure mode). -/
theorem c9_is_satisfying_total (s : ProductionStats) (r : Ratio)
    (hno : s.block_success_count + s.block_failure_count ≤ U64MAX) :
    ∃ b : Bool, s.is_satisfying r = some b := by
  unfold ProductionStats.is_satisfying
  have hgt : ¬ (s.block_success_count + s.block_failure_count > U64MAX) := by omega
  simp only [hgt, if_false]
  by_cases h0 : s.block_success_count + s.block_failure_count = 0
  · exact ⟨true, by simp [h0]⟩
  · refine ⟨decide (s.block_failure_count * r.den ≤ r.num *
      (s.block_success_count + s.block_failure_count)), ?_⟩
    simp [h0]

/-- C9 witness: within the `u64` range the predicate produces a
boolean. -/
theorem c9_witness :
    1 + 9 ≤ U64MAX ∧ (ProductionStats.is_satisfying ⟨1, 9⟩ ⟨1, 2⟩).isSome := by
  refine ⟨by decide, ?_⟩
  obtain ⟨b, hb⟩ := c9_is_satisfying_total ⟨1, 9⟩ ⟨1, 2⟩ (by decide)
  rw [hb]
  rfl

end CycleInfoSpec
